import Mathlib

/-!
Shallow embedding of the Swiss-pairing engine of the chesssystem repository.

The authoritative pairing implementation is `calculateSwissPairings` in the
main client component (the revision with the active-player filter, the
break-on-exact-score match, the forced-rematch fallback and the
odd-count-only bye).  Score recomputation follows `getPlayerScore` /
`updatePlayerScores` (identical per-player formula in client and server).

Machine numbers: scores are multiples of 0.5 and ratings are integers; all
arithmetic performed on them by the source (addition of 0.5/1, subtraction,
comparison, absolute value) is exact in binary floating point at these
magnitudes, so they are modelled as `ℚ` and `ℤ`.  Player identifiers are
opaque and modelled as `ℕ`; freshly generated pairing identifiers
(`Date.now()`/`Math.random()`) are modelled by an identifier supply
`gen : ℕ → String` consumed by a counter.
-/

namespace ChessSystem

/-- A tournament player as held in client state: `id`, `name`, `rating`,
`score`, `disabled` ("inactive this round"). -/
structure Player where
  id : ℕ
  name : String
  rating : ℤ
  score : ℚ
  disabled : Bool
deriving DecidableEq, Repr

instance : Inhabited Player := ⟨⟨0, "", 0, 0, false⟩⟩

/-- A pairing as produced by `calculateSwissPairings`: fresh identifier,
white/black player ids (`black = none` is a bye), snapshotted display
names, nullable result string, round number. -/
structure Pairing where
  pid : String
  white : ℕ
  black : Option ℕ
  whiteName : String
  blackName : String
  result : Option String
  round : ℕ
deriving DecidableEq, Repr

/-- A round: an ordered list of pairings (the only field the engine and the
score recomputation consult). -/
structure Round where
  pairings : List Pairing
deriving DecidableEq, Repr

/-- `pairing.white === a.id && pairing.black === b.id || ...` : the history
predicate tested inside the opponent scan. -/
def pairedTogether (a b : Player) (pr : Pairing) : Bool :=
  (pr.white == a.id && pr.black == some b.id) ||
  (pr.white == b.id && pr.black == some a.id)

/-- `rounds.some(round => round.pairings.some(...))` : whether `a` and `b`
have already faced each other in some recorded round. -/
def havePlayed (rounds : List Round) (a b : Player) : Bool :=
  rounds.any fun r => r.pairings.any (pairedTogether a b)

/-- The sort comparator of `calculateSwissPairings`: score descending, then
rating descending (`a` may come before `b`). -/
def standingsLE (a b : Player) : Bool :=
  b.score < a.score || (a.score == b.score && decide (b.rating ≤ a.rating))

/-- `[...activePlayers].sort((a, b) => ...)` — a stable sort by score
descending then rating descending. -/
def sortByStanding (players : List Player) : List Player :=
  players.mergeSort standingsLE

/-- `sortedPlayers[j]` (always in range where the source uses it). -/
def playerAt (sorted : List Player) (j : ℕ) : Player :=
  sorted.getD j default

/-- `bestOpponent === null || scoreDiff < minScoreDiff` : whether a new
candidate at score-distance `diff` replaces the running best
(`minScoreDiff` starts at `Infinity`, represented by `none`). -/
def improves (diff : ℚ) : Option (ℕ × ℚ) → Bool
  | none => true
  | some (_, d) => diff < d

/-- The inner `for (let j = i + 1; ...)` opponent scan.  `js` is the list of
forward positions still to examine; `best` holds
`(bestOpponentIndex, minScoreDiff)`.  A first unused no-history candidate at
score-distance `0` is returned at once (`break`); otherwise the scan keeps
the strictly-improving running best and returns it at the end. -/
def scanOpp (sorted : List Player) (rounds : List Round) (p1 : Player)
    (used : Finset ℕ) : List ℕ → Option (ℕ × ℚ) → Option ℕ
  | [], best => best.map Prod.fst
  | j :: js, best =>
    if j ∈ used then scanOpp sorted rounds p1 used js best
    else
      let p2 := playerAt sorted j
      let diff := |p1.score - p2.score|
      if havePlayed rounds p1 p2 = false ∧ diff = 0 then some j
      else if havePlayed rounds p1 p2 = false ∧ improves diff best = true then
        scanOpp sorted rounds p1 used js (some (j, diff))
      else scanOpp sorted rounds p1 used js best

/-- The fallback scan: the first forward position not yet used, regardless
of history. -/
def firstUnused (used : Finset ℕ) : List ℕ → Option ℕ
  | [] => none
  | j :: js => if j ∈ used then firstUnused used js else some j

/-- The mutable state of the outer sweep: `pairings` accumulated so far, the
`used` position set, the `byeGiven` flag, and the counter feeding the
identifier supply. -/
structure EngineState where
  pairings : List Pairing
  used : Finset ℕ
  byeGiven : Bool
  ctr : ℕ
deriving DecidableEq

/-- A normal pairing record pushed by the sweep (`result: null`). -/
def mkGamePairing (gen : ℕ → String) (ctr : ℕ) (p1 p2 : Player) (roundNumber : ℕ) :
    Pairing :=
  ⟨"pairing-" ++ gen ctr, p1.id, some p2.id, p1.name, p2.name, none, roundNumber⟩

/-- A bye pairing record (`black: null`, `result: '1-0'`, name `'BYE'`). -/
def mkByePairing (gen : ℕ → String) (ctr : ℕ) (p1 : Player) (roundNumber : ℕ) :
    Pairing :=
  ⟨"bye-" ++ gen ctr, p1.id, none, p1.name, "BYE", some "1-0", roundNumber⟩

/-- The outer `for (let i = 0; ...)` sweep over positions of the sorted
list.  At each unused position the opponent scan runs over the remaining
forward positions; on success both sides are marked used and a pairing is
pushed; otherwise the fallback pairs with the first unused forward position
(a forced rematch); otherwise a bye is issued when the count is odd and no
bye was given; otherwise the position is marked used with no output. -/
def pairLoop (sorted : List Player) (rounds : List Round) (roundNumber : ℕ)
    (isOdd : Bool) (gen : ℕ → String) : List ℕ → EngineState → EngineState
  | [], st => st
  | i :: is, st =>
    if i ∈ st.used then pairLoop sorted rounds roundNumber isOdd gen is st
    else
      let p1 := playerAt sorted i
      match scanOpp sorted rounds p1 st.used is none with
      | some j =>
        pairLoop sorted rounds roundNumber isOdd gen is
          ⟨st.pairings ++ [mkGamePairing gen st.ctr p1 (playerAt sorted j) roundNumber],
           insert j (insert i st.used), st.byeGiven, st.ctr + 1⟩
      | none =>
        match firstUnused st.used is with
        | some j =>
          pairLoop sorted rounds roundNumber isOdd gen is
            ⟨st.pairings ++ [mkGamePairing gen st.ctr p1 (playerAt sorted j) roundNumber],
             insert j (insert i st.used), st.byeGiven, st.ctr + 1⟩
        | none =>
          if isOdd = true ∧ st.byeGiven = false then
            pairLoop sorted rounds roundNumber isOdd gen is
              ⟨st.pairings ++ [mkByePairing gen st.ctr p1 roundNumber],
               insert i st.used, true, st.ctr + 1⟩
          else
            pairLoop sorted rounds roundNumber isOdd gen is
              ⟨st.pairings, insert i st.used, st.byeGiven, st.ctr⟩

/-- `calculateSwissPairings(players, roundNumber)` of the main client
component, with the round history `rounds` (a closure over component state
in the source) and the identifier supply `gen` made explicit.  Fewer than 2
players, or fewer than 2 active players, yields the empty list; otherwise
the active players are sorted by score then rating descending and the
greedy sweep produces the round's pairings. -/
def calculateSwissPairings (gen : ℕ → String) (players : List Player)
    (roundNumber : ℕ) (rounds : List Round) : List Pairing :=
  if players.length < 2 then []
  else
    let activePlayers := players.filter fun p => p.disabled = false
    if activePlayers.length < 2 then []
    else
      let sortedPlayers := sortByStanding activePlayers
      let isOdd : Bool := sortedPlayers.length % 2 = 1
      (pairLoop sortedPlayers rounds roundNumber isOdd gen
        (List.range sortedPlayers.length) ⟨[], ∅, false, 0⟩).pairings

/-- The per-player score recomputation formula (`getPlayerScore` on the
client, the inner loop of `updatePlayerScores` on the server): a pairing
contributes 1 to its white side on result `'1-0'`, 1 to its black side on
`'0-1'`, and 0.5 to either side on `'0.5-0.5'`. -/
def pairingPoints (playerId : ℕ) (pr : Pairing) : ℚ :=
  if pr.white = playerId then
    if pr.result = some "1-0" then 1
    else if pr.result = some "0.5-0.5" then 1/2
    else 0
  else if pr.black = some playerId then
    if pr.result = some "0-1" then 1
    else if pr.result = some "0.5-0.5" then 1/2
    else 0
  else 0

/-- `getPlayerScore(playerId)`: fold the contribution of every pairing of
every round into a cumulative score. -/
def getPlayerScore (playerId : ℕ) (rounds : List Round) : ℚ :=
  (rounds.map fun r => ((r.pairings.map (pairingPoints playerId)).sum)).sum

/-- Position `j` is a live candidate for `p1`: not yet used and with no
prior history with `p1`. -/
def eligibleAt (sorted : List Player) (rounds : List Round) (p1 : Player)
    (used : Finset ℕ) (j : ℕ) : Prop :=
  j ∉ used ∧ havePlayed rounds p1 (playerAt sorted j) = false

instance (sorted : List Player) (rounds : List Round) (p1 : Player)
    (used : Finset ℕ) (j : ℕ) : Decidable (eligibleAt sorted rounds p1 used j) := by
  unfold eligibleAt; infer_instance

/-- The absolute score difference `Math.abs(player1.score - player2.score)`
between `p1` and the player at position `j`. -/
def scoreDiffAt (sorted : List Player) (p1 : Player) (j : ℕ) : ℚ :=
  |p1.score - (playerAt sorted j).score|

/-- A bye record: `black: null`. -/
def isBye (pr : Pairing) : Bool :=
  pr.black.isNone

/-- The player ids a pairing mentions: its white side, plus its black side
when it is not a bye. -/
def mentionedIds (pr : Pairing) : List ℕ :=
  pr.white :: pr.black.toList

/-- All id occurrences across a pairing list, as a multiset. -/
def allMentioned (prs : List Pairing) : Multiset ℕ :=
  (prs.flatMap mentionedIds : List ℕ)

/-- The sweep invariant, after all positions `< k` have been processed:
`used` holds valid positions and covers everything before `k`; its parity
matches the bye flag; a bye was only given for an odd field; the pairings
mention exactly the ids of the used positions; the bye count matches the
bye flag; and every game pairing points from an earlier position to a
strictly later one. -/
def LoopInv (sorted : List Player) (k : ℕ) (st : EngineState) : Prop :=
  st.used ⊆ Finset.range sorted.length ∧
  (∀ j, j < k → j ∈ st.used) ∧
  st.used.card % 2 = (if st.byeGiven then 1 else 0) ∧
  (st.byeGiven = true → sorted.length % 2 = 1) ∧
  allMentioned st.pairings = st.used.val.map (fun j => (playerAt sorted j).id) ∧
  st.pairings.countP isBye = (if st.byeGiven then 1 else 0) ∧
  (∀ pr ∈ st.pairings, ∀ b, pr.black = some b →
     ∃ i' j', i' < j' ∧ j' < sorted.length ∧
       pr.white = (playerAt sorted i').id ∧ b = (playerAt sorted j').id)

/-- Everything a produced pairing carries except its freshly generated
identifier. -/
def coreOf (pr : Pairing) : ℕ × Option ℕ × String × String × Option String × ℕ :=
  (pr.white, pr.black, pr.whiteName, pr.blackName, pr.result, pr.round)

/-- A fixed identifier supply used in concrete witnesses. -/
def genW : ℕ → String := fun n => toString n

/-- Concrete players used in witnesses. -/
def wpA : Player := ⟨1, "A", 1500, 1, false⟩

def wpB : Player := ⟨2, "B", 1400, 1, false⟩

def wpC : Player := ⟨3, "C", 1300, 0, false⟩

def wpD : Player := ⟨4, "D", 1200, 0, false⟩

/-- A history in which players 1 and 2 have already met. -/
def whist : List Round := [⟨[⟨"x", 1, some 2, "A", "B", some "1-0", 1⟩]⟩]

/-- A disabled (inactive) concrete player used in witnesses. -/
def wpBd : Player := ⟨2, "B", 1400, 1, true⟩

/-- A concrete unscored pairing used in witnesses. -/
def wpr : Pairing := ⟨"p", 1, some 2, "A", "B", none, 1⟩

/-- Whatever position the opponent scan returns satisfies any property `P`
holding of every scanned position (and of the incoming running best), and
is not yet used. -/
theorem scanOpp_some_prop (sorted : List Player) (rounds : List Round) (p1 : Player)
    (used : Finset ℕ) (P : ℕ → Prop) :
    ∀ (js : List ℕ) (best : Option (ℕ × ℚ)),
      (∀ c d, best = some (c, d) → P c ∧ c ∉ used) →
      (∀ j ∈ js, P j) →
      ∀ r, scanOpp sorted rounds p1 used js best = some r → P r ∧ r ∉ used := by
  intro js
  induction js with
  | nil =>
    intro best hb _ r h
    simp only [scanOpp, Option.map_eq_some'] at h
    obtain ⟨⟨c, d⟩, hcd, hr⟩ := h
    exact hr ▸ hb c d hcd
  | cons j js ih =>
    intro best hb hjs r h
    simp only [scanOpp] at h
    split_ifs at h with h1 h2 h3
    · exact ih best hb (fun x hx => hjs x (List.mem_cons_of_mem _ hx)) r h
    · injection h with hjr
      subst hjr
      exact ⟨hjs j (List.mem_cons_self _ _), h1⟩
    · refine ih _ (fun c d hcd => ?_) (fun x hx => hjs x (List.mem_cons_of_mem _ hx)) r h
      have hjc : j = c := congrArg Prod.fst (Option.some.inj hcd)
      subst hjc
      exact ⟨hjs j (List.mem_cons_self _ _), h1⟩
    · exact ih best hb (fun x hx => hjs x (List.mem_cons_of_mem _ hx)) r h

/-- If no scanned position is eligible (each is used or has prior history),
the opponent scan started with an empty running best returns nothing. -/
theorem scanOpp_none_of_no_eligible (sorted : List Player) (rounds : List Round)
    (p1 : Player) (used : Finset ℕ) :
    ∀ (js : List ℕ), (∀ j ∈ js, ¬ eligibleAt sorted rounds p1 used j) →
      scanOpp sorted rounds p1 used js none = none := by
  intro js
  induction js with
  | nil => intro _; rfl
  | cons j js ih =>
    intro h
    simp only [scanOpp]
    split_ifs with h1 h2 h3
    · exact ih fun x hx => h x (List.mem_cons_of_mem _ hx)
    · exact absurd ⟨h1, h2.1⟩ (h j (List.mem_cons_self _ _))
    · exact absurd ⟨h1, h3.1⟩ (h j (List.mem_cons_self _ _))
    · exact ih fun x hx => h x (List.mem_cons_of_mem _ hx)

/-- A position returned by the fallback scan is a scanned position not yet
used. -/
theorem firstUnused_some (used : Finset ℕ) :
    ∀ (js : List ℕ) (j : ℕ), firstUnused used js = some j → j ∈ js ∧ j ∉ used := by
  intro js
  induction js with
  | nil => intro j h; simp [firstUnused] at h
  | cons x js ih =>
    intro j h
    simp only [firstUnused] at h
    split_ifs at h with h1
    · obtain ⟨hm, hu⟩ := ih j h
      exact ⟨List.mem_cons_of_mem _ hm, hu⟩
    · obtain rfl := Option.some.inj h
      exact ⟨List.mem_cons_self _ _, h1⟩

/-- If the fallback scan finds nothing, every scanned position is used. -/
theorem firstUnused_eq_none (used : Finset ℕ) :
    ∀ (js : List ℕ), firstUnused used js = none → ∀ j ∈ js, j ∈ used := by
  intro js
  induction js with
  | nil => intro _ j hj; exact absurd hj (List.not_mem_nil _)
  | cons x js ih =>
    intro h j hj
    simp only [firstUnused] at h
    split_ifs at h with h1
    · rcases List.mem_cons.mp hj with rfl | hm
      · exact h1
      · exact ih h j hm

/-- If every scanned position is used, the fallback scan finds nothing. -/
theorem firstUnused_none_of_all_used (used : Finset ℕ) :
    ∀ (js : List ℕ), (∀ j ∈ js, j ∈ used) → firstUnused used js = none := by
  intro js
  induction js with
  | nil => intro _; rfl
  | cons x js ih =>
    intro h
    simp only [firstUnused]
    rw [if_pos (h x (List.mem_cons_self _ _))]
    exact ih fun j hj => h j (List.mem_cons_of_mem _ hj)

/-- C3: during the forward scan, the first unused candidate whose score
equals the current competitor's and who has no prior history with them is
selected immediately, whatever running best has accumulated and whatever
candidates follow — a first identical-score fit, not a global minimum. -/
theorem scanOpp_first_exact_fit (sorted : List Player) (rounds : List Round)
    (p1 : Player) (used : Finset ℕ) (j : ℕ) (bs : List ℕ)
    (hj : eligibleAt sorted rounds p1 used j)
    (hscore : (playerAt sorted j).score = p1.score) :
    ∀ (as : List ℕ) (best : Option (ℕ × ℚ)),
      (∀ a ∈ as, ¬ (eligibleAt sorted rounds p1 used a ∧
        (playerAt sorted a).score = p1.score)) →
      scanOpp sorted rounds p1 used (as ++ j :: bs) best = some j := by
  intro as
  induction as with
  | nil =>
    intro best _
    simp only [List.nil_append, scanOpp]
    rw [if_neg hj.1, if_pos ⟨hj.2, by rw [hscore]; simp⟩]
  | cons a as ih =>
    intro best has
    simp only [List.cons_append, scanOpp]
    split_ifs with h1 h2 h3
    · exact ih best fun x hx => has x (List.mem_cons_of_mem _ hx)
    · exfalso
      have hdz : (playerAt sorted a).score = p1.score := by
        have := h2.2
        have h0 : p1.score - (playerAt sorted a).score = 0 := abs_eq_zero.mp this
        linarith [h0]
      exact has a (List.mem_cons_self _ _) ⟨⟨h1, h2.1⟩, hdz⟩
    · exact ih _ fun x hx => has x (List.mem_cons_of_mem _ hx)
    · exact ih best fun x hx => has x (List.mem_cons_of_mem _ hx)

/-- Once a running best at distance `d` is installed, later candidates that
are all at distance `≥ d` (and never at distance `0`) leave it in place:
the strict `<` comparison favors the first encountered on ties. -/
theorem scanOpp_keeps_best (sorted : List Player) (rounds : List Round)
    (p1 : Player) (used : Finset ℕ) (c : ℕ) (d : ℚ) :
    ∀ (bs : List ℕ),
      (∀ b ∈ bs, eligibleAt sorted rounds p1 used b →
        scoreDiffAt sorted p1 b ≠ 0 ∧ d ≤ scoreDiffAt sorted p1 b) →
      scanOpp sorted rounds p1 used bs (some (c, d)) = some c := by
  intro bs
  induction bs with
  | nil => intro _; rfl
  | cons b bs ih =>
    intro h
    simp only [scanOpp]
    split_ifs with h1 h2 h3
    · exact ih fun x hx => h x (List.mem_cons_of_mem _ hx)
    · exact absurd h2.2 ((h b (List.mem_cons_self _ _) ⟨h1, h2.1⟩).1)
    · exfalso
      have hle := (h b (List.mem_cons_self _ _) ⟨h1, h3.1⟩).2
      have : improves (scoreDiffAt sorted p1 b) (some (c, d)) = false := by
        simp only [improves, decide_eq_false_iff_not]
        exact not_lt.mpr hle
      rw [scoreDiffAt] at this
      rw [this] at h3
      exact Bool.false_ne_true h3.2
    · exact ih fun x hx => h x (List.mem_cons_of_mem _ hx)

/-- C8 (generalized over the incoming running best): with no exact-score
candidate anywhere in the scan, the scan returns the first candidate
achieving the minimal absolute score difference among eligible candidates,
provided the incoming best is strictly worse than that minimum. -/
theorem scanOpp_best_effort_aux (sorted : List Player) (rounds : List Round)
    (p1 : Player) (used : Finset ℕ) (j : ℕ) (bs : List ℕ)
    (hj : eligibleAt sorted rounds p1 used j)
    (hjne : scoreDiffAt sorted p1 j ≠ 0)
    (hafter : ∀ b ∈ bs, eligibleAt sorted rounds p1 used b →
      scoreDiffAt sorted p1 b ≠ 0 ∧ scoreDiffAt sorted p1 j ≤ scoreDiffAt sorted p1 b) :
    ∀ (as : List ℕ) (best : Option (ℕ × ℚ)),
      (∀ a ∈ as, eligibleAt sorted rounds p1 used a →
        scoreDiffAt sorted p1 a ≠ 0 ∧ scoreDiffAt sorted p1 j < scoreDiffAt sorted p1 a) →
      (∀ c d, best = some (c, d) → scoreDiffAt sorted p1 j < d) →
      scanOpp sorted rounds p1 used (as ++ j :: bs) best = some j := by
  intro as
  induction as with
  | nil =>
    intro best _ hbest
    simp only [List.nil_append, scanOpp]
    rw [if_neg hj.1]
    have hd0 : ¬ (havePlayed rounds p1 (playerAt sorted j) = false ∧
        |p1.score - (playerAt sorted j).score| = 0) := by
      rintro ⟨-, habs⟩
      exact hjne (by rw [scoreDiffAt]; exact habs)
    rw [if_neg hd0]
    have himp : improves |p1.score - (playerAt sorted j).score| best = true := by
      cases best with
      | none => rfl
      | some cd =>
        obtain ⟨c, d⟩ := cd
        have := hbest c d rfl
        simp only [improves, decide_eq_true_eq]
        rw [scoreDiffAt] at this
        exact this
    rw [if_pos ⟨hj.2, himp⟩]
    exact scanOpp_keeps_best sorted rounds p1 used j _ bs fun b hb he =>
      ⟨(hafter b hb he).1, by
        have := (hafter b hb he).2
        rw [scoreDiffAt] at this ⊢
        exact this⟩
  | cons a as ih =>
    intro best has hbest
    simp only [List.cons_append, scanOpp]
    split_ifs with h1 h2 h3
    · exact ih best (fun x hx => has x (List.mem_cons_of_mem _ hx)) hbest
    · exfalso
      exact (has a (List.mem_cons_self _ _) ⟨h1, h2.1⟩).1
        (by rw [scoreDiffAt]; exact h2.2)
    · refine ih _ (fun x hx => has x (List.mem_cons_of_mem _ hx)) ?_
      intro c d hcd
      injection hcd with hcd'
      have hda : d = |p1.score - (playerAt sorted a).score| :=
        (congrArg Prod.snd hcd').symm
      have := (has a (List.mem_cons_self _ _) ⟨h1, h3.1⟩).2
      rw [scoreDiffAt] at this
      rw [hda]
      exact this
    · exact ih best (fun x hx => has x (List.mem_cons_of_mem _ hx)) hbest

/-- Appending one pairing adds its mentioned ids to the mention multiset. -/
theorem allMentioned_append_one (l : List Pairing) (pr : Pairing) :
    allMentioned (l ++ [pr]) = allMentioned l + (mentionedIds pr : Multiset ℕ) := by
  simp [allMentioned, List.flatMap_append]

/-- Adding two fresh elements to the mention multiset matches inserting two
fresh positions into `used`. -/
theorem mention_add_two (s : Multiset ℕ) (a b : ℕ) : s + ↑[a, b] = b ::ₘ a ::ₘ s := by
  have h : ([a, b] : Multiset ℕ) = a ::ₘ b ::ₘ 0 := rfl
  rw [h, Multiset.add_cons, Multiset.add_cons, add_zero, Multiset.cons_swap]

/-- Adding one fresh element to the mention multiset matches inserting one
fresh position into `used`. -/
theorem mention_add_one (s : Multiset ℕ) (a : ℕ) : s + ↑[a] = a ::ₘ s := by
  have h : ([a] : Multiset ℕ) = a ::ₘ 0 := rfl
  rw [h, Multiset.add_cons, add_zero]

/-- One pairing step (scan hit or fallback): pairing the current position
`k` with a fresh forward position `j` preserves the sweep invariant and
advances it past `k`. -/
theorem LoopInv.pairStep (sorted : List Player) (rn : ℕ) (gen : ℕ → String)
    (k j : ℕ) (st : EngineState)
    (hinv : LoopInv sorted k st) (hku : k ∉ st.used) (hju : j ∉ st.used)
    (hkj : k < j) (hjn : j < sorted.length) :
    LoopInv sorted (k + 1)
      ⟨st.pairings ++ [mkGamePairing gen st.ctr (playerAt sorted k) (playerAt sorted j) rn],
       insert j (insert k st.used), st.byeGiven, st.ctr + 1⟩ := by
  obtain ⟨h1, h2, h3, h4, h5, h6, h7⟩ := hinv
  have hkn : k < sorted.length := hkj.trans hjn
  have hjk : j ≠ k := Nat.ne_of_gt hkj
  have hjik : j ∉ insert k st.used := by
    simp only [Finset.mem_insert]
    rintro (rfl | hj)
    · exact hjk rfl
    · exact hju hj
  refine ⟨?_, ?_, ?_, h4, ?_, ?_, ?_⟩
  · rw [Finset.insert_subset_iff, Finset.insert_subset_iff]
    exact ⟨Finset.mem_range.mpr hjn, Finset.mem_range.mpr hkn, h1⟩
  · intro x hx
    rcases Nat.lt_succ_iff_lt_or_eq.mp hx with hxk | rfl
    · exact Finset.mem_insert_of_mem (Finset.mem_insert_of_mem (h2 x hxk))
    · exact Finset.mem_insert_of_mem (Finset.mem_insert_self _ _)
  · show (insert j (insert k st.used)).card % 2 = if st.byeGiven = true then 1 else 0
    rw [Finset.card_insert_of_not_mem hjik, Finset.card_insert_of_not_mem hku, ← h3]
    omega
  · show allMentioned (st.pairings ++ [mkGamePairing gen st.ctr (playerAt sorted k)
        (playerAt sorted j) rn]) = _
    rw [allMentioned_append_one, h5]
    have hm : mentionedIds (mkGamePairing gen st.ctr (playerAt sorted k)
        (playerAt sorted j) rn) = [(playerAt sorted k).id, (playerAt sorted j).id] := rfl
    rw [hm, mention_add_two, Finset.insert_val_of_not_mem hjik,
      Finset.insert_val_of_not_mem hku]
    simp [Multiset.map_cons]
  · rw [List.countP_append, h6]
    have h0 : List.countP isBye [mkGamePairing gen st.ctr (playerAt sorted k)
        (playerAt sorted j) rn] = 0 := rfl
    rw [h0]
    show (if st.byeGiven = true then 1 else 0) + 0 = if st.byeGiven = true then 1 else 0
    exact Nat.add_zero _
  · intro pr hpr b hb
    rcases List.mem_append.mp hpr with hold | hnew
    · exact h7 pr hold b hb
    · have hpr' : pr = mkGamePairing gen st.ctr (playerAt sorted k)
          (playerAt sorted j) rn := List.mem_singleton.mp hnew
      subst hpr'
      exact ⟨k, j, hkj, hjn, rfl, (Option.some.inj hb).symm⟩

/-- The sweep, run over the remaining positions `k, k+1, …` with the
invariant holding at `k`, ends with the invariant holding at the full
length; in particular the silently-dropping degenerate branch is never
taken, because its guard contradicts the parity part of the invariant. -/
theorem pairLoop_inv (sorted : List Player) (rounds : List Round) (rn : ℕ)
    (gen : ℕ → String) :
    ∀ (m k : ℕ) (st : EngineState), k + m = sorted.length →
      LoopInv sorted k st →
      LoopInv sorted sorted.length
        (pairLoop sorted rounds rn (decide (sorted.length % 2 = 1)) gen
          (List.range' k m) st) := by
  intro m
  induction m with
  | zero =>
    intro k st hk hinv
    have hkn : k = sorted.length := by omega
    subst hkn
    simpa [pairLoop] using hinv
  | succ m ih =>
    intro k st hk hinv
    have hkn : k < sorted.length := by omega
    rw [List.range'_succ]
    simp only [pairLoop]
    by_cases hku : k ∈ st.used
    · rw [if_pos hku]
      refine ih (k + 1) st (by omega) ⟨hinv.1, ?_, hinv.2.2⟩
      intro x hx
      rcases Nat.lt_succ_iff_lt_or_eq.mp hx with hxk | rfl
      · exact hinv.2.1 x hxk
      · exact hku
    · rw [if_neg hku]
      cases hscan : scanOpp sorted rounds (playerAt sorted k) st.used
          (List.range' (k + 1) m) none with
      | some j =>
        simp only
        have hj := scanOpp_some_prop sorted rounds (playerAt sorted k) st.used
          (fun x => x ∈ List.range' (k + 1) m) (List.range' (k + 1) m) none
          (by intro c d h; exact absurd h (Option.noConfusion)) (fun x hx => hx) j hscan
        have hjr := List.mem_range'_1.mp hj.1
        exact ih (k + 1) _ (by omega)
          (LoopInv.pairStep sorted rn gen k j st hinv hku hj.2 (by omega) (by omega))
      | none =>
        simp only
        cases hfb : firstUnused st.used (List.range' (k + 1) m) with
        | some j =>
          simp only
          have hj := firstUnused_some st.used (List.range' (k + 1) m) j hfb
          have hjr := List.mem_range'_1.mp hj.1
          exact ih (k + 1) _ (by omega)
            (LoopInv.pairStep sorted rn gen k j st hinv hku hj.2 (by omega) (by omega))
        | none =>
          simp only
          have hall : ∀ x, k < x → x < sorted.length → x ∈ st.used := by
            intro x hkx hxn
            exact firstUnused_eq_none st.used (List.range' (k + 1) m) hfb x
              (List.mem_range'_1.mpr ⟨hkx, by omega⟩)
          have hused : st.used = (Finset.range sorted.length).erase k := by
            apply Finset.Subset.antisymm
            · intro x hx
              refine Finset.mem_erase.mpr ⟨?_, hinv.1 hx⟩
              rintro rfl
              exact hku hx
            · intro x hx
              obtain ⟨hxk, hxr⟩ := Finset.mem_erase.mp hx
              have hxn := Finset.mem_range.mp hxr
              rcases Nat.lt_or_ge x k with hlt | hge
              · exact hinv.2.1 x hlt
              · exact hall x (by omega) hxn
          have hcard : st.used.card = sorted.length - 1 := by
            rw [hused, Finset.card_erase_of_mem (Finset.mem_range.mpr hkn),
              Finset.card_range]
          split_ifs with hguard
          · -- bye branch
            obtain ⟨hodd, hnobye⟩ := hguard
            have hoddn : sorted.length % 2 = 1 := of_decide_eq_true hodd
            refine ih (k + 1) _ (by omega) ⟨?_, ?_, ?_, ?_, ?_, ?_, ?_⟩
            · rw [Finset.insert_subset_iff]
              exact ⟨Finset.mem_range.mpr hkn, hinv.1⟩
            · intro x hx
              rcases Nat.lt_succ_iff_lt_or_eq.mp hx with hxk | rfl
              · exact Finset.mem_insert_of_mem (hinv.2.1 x hxk)
              · exact Finset.mem_insert_self _ _
            · show (insert k st.used).card % 2 = 1
              rw [Finset.card_insert_of_not_mem hku]
              have h3 := hinv.2.2.1
              rw [hnobye] at h3
              simp only [if_neg (Bool.false_ne_true)] at h3
              omega
            · intro _
              exact hoddn
            · show allMentioned (st.pairings ++
                  [mkByePairing gen st.ctr (playerAt sorted k) rn]) = _
              rw [allMentioned_append_one, hinv.2.2.2.2.1]
              have hm : mentionedIds (mkByePairing gen st.ctr (playerAt sorted k) rn) =
                  [(playerAt sorted k).id] := rfl
              rw [hm, mention_add_one, Finset.insert_val_of_not_mem hku]
              simp [Multiset.map_cons]
            · show List.countP isBye (st.pairings ++
                  [mkByePairing gen st.ctr (playerAt sorted k) rn]) = 1
              rw [List.countP_append]
              have h6 := hinv.2.2.2.2.2.1
              rw [hnobye] at h6
              simp only [if_neg (Bool.false_ne_true)] at h6
              rw [h6]
              rfl
            · intro pr hpr b hb
              rcases List.mem_append.mp hpr with hold | hnew
              · exact hinv.2.2.2.2.2.2 pr hold b hb
              · have hpr' : pr = mkByePairing gen st.ctr (playerAt sorted k) rn :=
                  List.mem_singleton.mp hnew
                subst hpr'
                exact absurd hb (Option.noConfusion)
          · -- degenerate branch: contradicts the invariant
            exfalso
            have h3 := hinv.2.2.1
            rw [hcard] at h3
            cases hbye : st.byeGiven with
            | true =>
              have hodd := hinv.2.2.2.1 hbye
              simp only [hbye, if_true] at h3
              omega
            | false =>
              have hodd' : ¬ (decide (sorted.length % 2 = 1) = true) := by
                intro hdec
                exact hguard ⟨hdec, hbye⟩
              have hnotodd : sorted.length % 2 ≠ 1 := by
                intro h
                exact hodd' (decide_eq_true h)
              simp only [hbye, Bool.false_eq_true, if_false] at h3
              omega

/-- Walking all positions of a list through `playerAt` reproduces the
list. -/
theorem map_playerAt_range (l : List Player) :
    (List.range l.length).map (playerAt l) = l := by
  induction l with
  | nil => rfl
  | cons a l ih =>
    rw [List.length_cons, List.range_succ_eq_map, List.map_cons, List.map_map]
    have h0 : playerAt (a :: l) 0 = a := rfl
    have hsucc : (playerAt (a :: l)) ∘ Nat.succ = playerAt l := by
      funext j
      rfl
    rw [h0, hsucc, ih]

/-- The invariant at the start of the sweep. -/
theorem loopInv_init (sorted : List Player) :
    LoopInv sorted 0 ⟨[], ∅, false, 0⟩ := by
  refine ⟨Finset.empty_subset _, ?_, ?_, ?_, ?_, ?_, ?_⟩
  · intro j hj
    exact absurd hj (Nat.not_lt_zero j)
  · simp
  · intro h
    exact absurd h (by simp)
  · rfl
  · simp
  · intro pr hpr
    exact absurd hpr (List.not_mem_nil pr)

/-- A full engine run with at least two active players is a sweep run whose
final state satisfies the invariant at the full sorted length. -/
theorem swissRun_inv (gen : ℕ → String) (players : List Player) (rn : ℕ)
    (rounds : List Round)
    (h2 : 2 ≤ (players.filter fun p => p.disabled = false).length) :
    ∃ st : EngineState,
      calculateSwissPairings gen players rn rounds = st.pairings ∧
      LoopInv (sortByStanding (players.filter fun p => p.disabled = false))
        (sortByStanding (players.filter fun p => p.disabled = false)).length st := by
  have hp2 : ¬ (players.length < 2) := by
    have := List.length_filter_le (fun p => p.disabled = false) players
    omega
  have ha2 : ¬ ((players.filter fun p => p.disabled = false).length < 2) := by omega
  refine ⟨pairLoop (sortByStanding (players.filter fun p => p.disabled = false))
      rounds rn
      (decide ((sortByStanding (players.filter fun p => p.disabled = false)).length % 2 = 1))
      gen
      (List.range (sortByStanding (players.filter fun p => p.disabled = false)).length)
      ⟨[], ∅, false, 0⟩, ?_, ?_⟩
  · simp only [calculateSwissPairings]
    rw [if_neg hp2, if_neg ha2]
  · rw [List.range_eq_range']
    exact pairLoop_inv _ rounds rn gen _ 0 _ (by omega) (loopInv_init _)

/-- C1: with at least 2 active competitors (whose identifiers are distinct,
as the data model guarantees), the round returned by
`calculateSwissPairings` covers every active competitor exactly once: each
appears in exactly one white, black or bye slot across the returned
pairings, hence in particular never in two pairings of the round. -/
theorem swiss_covers_each_active_exactly_once (gen : ℕ → String)
    (players : List Player) (rn : ℕ) (rounds : List Round)
    (h2 : 2 ≤ (players.filter fun p => p.disabled = false).length)
    (hnodup : ((players.filter fun p => p.disabled = false).map Player.id).Nodup) :
    ∀ p ∈ players.filter fun p => p.disabled = false,
      (allMentioned (calculateSwissPairings gen players rn rounds)).count p.id = 1 := by
  intro p hp
  obtain ⟨st, hrun, hinv⟩ := swissRun_inv gen players rn rounds h2
  have husedall : st.used =
      Finset.range (sortByStanding (players.filter fun p => p.disabled = false)).length := by
    apply Finset.Subset.antisymm hinv.1
    intro x hx
    exact hinv.2.1 x (Finset.mem_range.mp hx)
  have h5 := hinv.2.2.2.2.1
  rw [husedall, Finset.range_val] at h5
  have hrange : Multiset.range
      (sortByStanding (players.filter fun p => p.disabled = false)).length =
      ((List.range (sortByStanding (players.filter fun p => p.disabled = false)).length :
        List ℕ) : Multiset ℕ) := rfl
  rw [hrange, Multiset.map_coe] at h5
  have hmm : (List.range (sortByStanding
        (players.filter fun p => p.disabled = false)).length).map
      (fun j => (playerAt (sortByStanding (players.filter fun p => p.disabled = false)) j).id) =
      (sortByStanding (players.filter fun p => p.disabled = false)).map Player.id := by
    rw [show (fun j => (playerAt (sortByStanding
        (players.filter fun p => p.disabled = false)) j).id) =
        Player.id ∘ (playerAt (sortByStanding
          (players.filter fun p => p.disabled = false))) from rfl]
    rw [← List.map_map, map_playerAt_range]
  rw [hmm] at h5
  rw [hrun, h5, Multiset.coe_count]
  have hperm : (sortByStanding (players.filter fun p => p.disabled = false)).Perm
      (players.filter fun p => p.disabled = false) :=
    List.mergeSort_perm _ _
  rw [(hperm.map Player.id).count_eq]
  have hmem : p.id ∈ (players.filter fun p => p.disabled = false).map Player.id :=
    List.mem_map_of_mem Player.id hp
  have hle := List.nodup_iff_count_le_one.mp hnodup p.id
  have hpos := List.count_pos_iff.mpr hmem
  omega

/-- Closed witness for C1: a concrete 3-active-player run covers each of the
three ids exactly once. -/
theorem swiss_covers_witness :
    (2 ≤ ([wpA, wpB, wpC].filter fun p => p.disabled = false).length) ∧
    (([wpA, wpB, wpC].filter fun p => p.disabled = false).map Player.id).Nodup ∧
    (allMentioned (calculateSwissPairings genW [wpA, wpB, wpC] 2 whist)).count wpA.id = 1 :=
  ⟨by decide, by decide,
    swiss_covers_each_active_exactly_once genW [wpA, wpB, wpC] 2 whist
      (by decide) (by decide) wpA (by decide)⟩

/-- C2: the engine never returns more than one bye pairing, and returns a
bye only when the number of active competitors is odd. -/
theorem swiss_at_most_one_bye_and_only_odd (gen : ℕ → String)
    (players : List Player) (rn : ℕ) (rounds : List Round) :
    (calculateSwissPairings gen players rn rounds).countP isBye ≤ 1 ∧
    (0 < (calculateSwissPairings gen players rn rounds).countP isBye →
      (players.filter fun p => p.disabled = false).length % 2 = 1) := by
  by_cases h2 : 2 ≤ (players.filter fun p => p.disabled = false).length
  · obtain ⟨st, hrun, hinv⟩ := swissRun_inv gen players rn rounds h2
    have h6 := hinv.2.2.2.2.2.1
    have h4 := hinv.2.2.2.1
    have hlen : (sortByStanding (players.filter fun p => p.disabled = false)).length =
        (players.filter fun p => p.disabled = false).length :=
      List.length_mergeSort _
    rw [hrun, h6]
    cases hbye : st.byeGiven with
    | true =>
      refine ⟨by simp, fun _ => ?_⟩
      rw [← hlen]
      exact h4 hbye
    | false => simp
  · have hempty : calculateSwissPairings gen players rn rounds = [] := by
      simp only [calculateSwissPairings]
      by_cases hp : players.length < 2
      · rw [if_pos hp]
      · rw [if_neg hp, if_pos (by omega)]
    rw [hempty]
    exact ⟨by simp, fun h => absurd h (by simp)⟩

/-- Closed witness for C2: a concrete 3-active-player round contains a bye
(so the implication's antecedent is discharged) and the active count is
indeed odd. -/
theorem swiss_bye_witness :
    (calculateSwissPairings genW [wpA, wpB, wpC] 2 whist).countP isBye ≤ 1 ∧
    ([wpA, wpB, wpC].filter fun p => p.disabled = false).length % 2 = 1 := by
  have hrun : calculateSwissPairings genW [wpA, wpB, wpC] 2 whist =
      [⟨"pairing-" ++ toString 0, 1, some 3, "A", "C", none, 2⟩,
       ⟨"bye-" ++ toString 1, 2, none, "B", "BYE", some "1-0", 2⟩] := by
    simp [calculateSwissPairings, sortByStanding, standingsLE, List.mergeSort,
      pairLoop, scanOpp, playerAt, havePlayed, improves, firstUnused,
      mkGamePairing, mkByePairing, pairedTogether, genW, wpA, wpB, wpC, whist,
      List.range_succ]
  refine ⟨(swiss_at_most_one_bye_and_only_odd genW [wpA, wpB, wpC] 2 whist).1,
    (swiss_at_most_one_bye_and_only_odd genW [wpA, wpB, wpC] 2 whist).2 ?_⟩
  rw [hrun]
  decide

/-- C10: every non-bye pairing produced by the engine points from a
strictly earlier position of the (score-descending, rating-descending)
sorted active list to a strictly later one: white is always the
higher-ranked side. -/
theorem swiss_white_earlier_position (gen : ℕ → String) (players : List Player)
    (rn : ℕ) (rounds : List Round) :
    ∀ pr ∈ calculateSwissPairings gen players rn rounds, ∀ b, pr.black = some b →
      ∃ i j, i < j ∧
        j < (sortByStanding (players.filter fun p => p.disabled = false)).length ∧
        pr.white = (playerAt (sortByStanding (players.filter fun p => p.disabled = false)) i).id ∧
        b = (playerAt (sortByStanding (players.filter fun p => p.disabled = false)) j).id := by
  intro pr hpr b hb
  by_cases h2 : 2 ≤ (players.filter fun p => p.disabled = false).length
  · obtain ⟨st, hrun, hinv⟩ := swissRun_inv gen players rn rounds h2
    rw [hrun] at hpr
    exact hinv.2.2.2.2.2.2 pr hpr b hb
  · exfalso
    have hempty : calculateSwissPairings gen players rn rounds = [] := by
      simp only [calculateSwissPairings]
      by_cases hp : players.length < 2
      · rw [if_pos hp]
      · rw [if_neg hp, if_pos (by omega)]
    rw [hempty] at hpr
    exact List.not_mem_nil pr hpr

/-- Closed witness for C10: in a concrete 2-player run the produced pairing
points from an earlier position of the sorted list to a later one. -/
theorem swiss_white_earlier_witness :
    ∃ i j, i < j ∧
      j < (sortByStanding ([wpA, wpB].filter fun p => p.disabled = false)).length ∧
      (1 : ℕ) = (playerAt (sortByStanding
        ([wpA, wpB].filter fun p => p.disabled = false)) i).id ∧
      (2 : ℕ) = (playerAt (sortByStanding
        ([wpA, wpB].filter fun p => p.disabled = false)) j).id := by
  have hmem : (⟨"pairing-" ++ toString 0, 1, some 2, "A", "B", none, 1⟩ : Pairing) ∈
      calculateSwissPairings genW [wpA, wpB] 1 [] := by
    have hrun : calculateSwissPairings genW [wpA, wpB] 1 [] =
        [⟨"pairing-" ++ toString 0, 1, some 2, "A", "B", none, 1⟩] := by
      simp [calculateSwissPairings, sortByStanding, standingsLE, List.mergeSort,
        pairLoop, scanOpp, playerAt, havePlayed, improves, firstUnused,
        mkGamePairing, genW, wpA, wpB, List.range_succ]
    rw [hrun]
    exact List.mem_singleton.mpr rfl
  exact swiss_white_earlier_position genW [wpA, wpB] 1 []
    ⟨"pairing-" ++ toString 0, 1, some 2, "A", "B", none, 1⟩ hmem 2 rfl

/-- C8: when no eligible candidate ties the current competitor's score
exactly, the scan (started with the empty running best) returns the
eligible candidate with the smallest absolute score difference, and among
equal differences the first one encountered, because the running-best
comparison is a strict less-than. -/
theorem scanOpp_best_effort_min_diff (sorted : List Player) (rounds : List Round)
    (p1 : Player) (used : Finset ℕ) (as bs : List ℕ) (j : ℕ)
    (hj : eligibleAt sorted rounds p1 used j)
    (hne : ∀ x ∈ as ++ j :: bs, eligibleAt sorted rounds p1 used x →
      scoreDiffAt sorted p1 x ≠ 0)
    (hbefore : ∀ a ∈ as, eligibleAt sorted rounds p1 used a →
      scoreDiffAt sorted p1 j < scoreDiffAt sorted p1 a)
    (hafter : ∀ b ∈ bs, eligibleAt sorted rounds p1 used b →
      scoreDiffAt sorted p1 j ≤ scoreDiffAt sorted p1 b) :
    scanOpp sorted rounds p1 used (as ++ j :: bs) none = some j := by
  refine scanOpp_best_effort_aux sorted rounds p1 used j bs hj ?_ ?_ as none ?_ ?_
  · exact hne j (List.mem_append_right as (List.mem_cons_self _ _)) hj
  · intro b hb he
    exact ⟨hne b (List.mem_append_right as (List.mem_cons_of_mem _ hb)) he,
      hafter b hb he⟩
  · intro a ha he
    exact ⟨hne a (List.mem_append_left _ ha) he, hbefore a ha he⟩
  · intro c d h
    exact absurd h (Option.noConfusion)

/-- Closed witness for C8: among eligible candidates at positions 2 and 3
(both at distance 1, the ineligible position 1 at distance 0 being a past
opponent), the first one, position 2, is returned. -/
theorem scanOpp_best_effort_witness :
    eligibleAt [wpA, wpB, wpC, wpD] whist wpA ∅ 2 ∧
    scanOpp [wpA, wpB, wpC, wpD] whist wpA ∅ ([1] ++ 2 :: [3]) none = some 2 := by
  refine ⟨by decide, ?_⟩
  refine scanOpp_best_effort_min_diff [wpA, wpB, wpC, wpD] whist wpA ∅ [1] [3] 2
    (by decide) ?_ ?_ ?_
  · intro x hx he
    fin_cases hx
    · exact absurd he.2 (by decide)
    · norm_num [scoreDiffAt, playerAt, wpA, wpC]
    · norm_num [scoreDiffAt, playerAt, wpA, wpD]
  · intro a ha he
    fin_cases ha
    exact absurd he.2 (by decide)
  · intro b hb he
    fin_cases hb
    norm_num [scoreDiffAt, playerAt, wpA, wpC, wpD]

/-- Closed witness for C3: position 1 (score 0, no exact fit) is passed
over and position 2, the first unused same-score no-history candidate, is
selected at once. -/
theorem scanOpp_first_exact_witness :
    eligibleAt [wpA, wpC, wpB] [] wpA ∅ 2 ∧
    (playerAt [wpA, wpC, wpB] 2).score = wpA.score ∧
    scanOpp [wpA, wpC, wpB] [] wpA ∅ ([1] ++ 2 :: []) none = some 2 := by
  refine ⟨by decide, rfl, ?_⟩
  refine scanOpp_first_exact_fit [wpA, wpC, wpB] [] wpA ∅ 2 []
    (by decide) rfl [1] none ?_
  intro a ha
  fin_cases ha
  rintro ⟨-, hsc⟩
  norm_num [playerAt, wpA, wpC] at hsc

/-- C4: when every unused forward candidate has prior history with the
current competitor (no history-free candidate exists at all) but at least
one unused forward candidate remains, the step pairs the current
competitor with the first remaining unused forward candidate — a forced
rematch — instead of issuing a bye or dropping the competitor. -/
theorem pairLoop_forced_rematch (sorted : List Player) (rounds : List Round)
    (rn : ℕ) (odd : Bool) (gen : ℕ → String) (i : ℕ) (is : List ℕ)
    (st : EngineState) (j₀ : ℕ)
    (hi : i ∉ st.used)
    (hplayed : ∀ j ∈ is, j ∉ st.used →
      havePlayed rounds (playerAt sorted i) (playerAt sorted j) = true)
    (hj₀ : firstUnused st.used is = some j₀) :
    pairLoop sorted rounds rn odd gen (i :: is) st =
      pairLoop sorted rounds rn odd gen is
        ⟨st.pairings ++ [mkGamePairing gen st.ctr (playerAt sorted i)
            (playerAt sorted j₀) rn],
         insert j₀ (insert i st.used), st.byeGiven, st.ctr + 1⟩ := by
  have hscan : scanOpp sorted rounds (playerAt sorted i) st.used is none = none := by
    refine scanOpp_none_of_no_eligible sorted rounds (playerAt sorted i) st.used is ?_
    rintro j hj ⟨hju, hpf⟩
    rw [hplayed j hj hju] at hpf
    exact Bool.noConfusion hpf
  simp only [pairLoop]
  rw [if_neg hi]
  simp only [hscan, hj₀]

/-- Closed witness for C4: the two players have already met, so the step
pairs them anyway (forced rematch) instead of issuing a bye. -/
theorem pairLoop_forced_rematch_witness :
    (0 ∉ (∅ : Finset ℕ)) ∧
    (∀ j ∈ [1], j ∉ (∅ : Finset ℕ) →
      havePlayed whist (playerAt [wpA, wpB] 0) (playerAt [wpA, wpB] j) = true) ∧
    firstUnused ∅ [1] = some 1 ∧
    pairLoop [wpA, wpB] whist 2 false genW [0, 1] ⟨[], ∅, false, 0⟩ =
      pairLoop [wpA, wpB] whist 2 false genW [1]
        ⟨[mkGamePairing genW 0 (playerAt [wpA, wpB] 0) (playerAt [wpA, wpB] 1) 2],
         insert 1 (insert 0 ∅), false, 1⟩ :=
  ⟨by decide, by decide, rfl,
    pairLoop_forced_rematch [wpA, wpB] whist 2 false genW 0 [1] ⟨[], ∅, false, 0⟩ 1
      (by decide) (by decide) rfl⟩

/-- C9 (amended): in the degenerate state — current position unused, no
unused forward position, bye already given — the sweep silently marks the
position used and emits nothing for it; no fault value of any kind is
produced (the function's type has no error channel). -/
theorem pairLoop_degenerate_silent_drop (sorted : List Player) (rounds : List Round)
    (rn : ℕ) (odd : Bool) (gen : ℕ → String) (i : ℕ) (is : List ℕ) (st : EngineState)
    (hi : i ∉ st.used) (hall : ∀ j ∈ is, j ∈ st.used) (hbye : st.byeGiven = true) :
    pairLoop sorted rounds rn odd gen (i :: is) st =
      pairLoop sorted rounds rn odd gen is
        ⟨st.pairings, insert i st.used, st.byeGiven, st.ctr⟩ := by
  have hscan : scanOpp sorted rounds (playerAt sorted i) st.used is none = none := by
    refine scanOpp_none_of_no_eligible sorted rounds (playerAt sorted i) st.used is ?_
    rintro j hj ⟨hju, -⟩
    exact hju (hall j hj)
  have hfb : firstUnused st.used is = none := firstUnused_none_of_all_used st.used is hall
  have hguard : ¬ (odd = true ∧ st.byeGiven = false) := by
    rintro ⟨-, hb⟩
    rw [hbye] at hb
    exact Bool.noConfusion hb
  simp only [pairLoop]
  rw [if_neg hi]
  simp only [hscan, hfb]
  rw [if_neg hguard]

/-- Counterexample to C9 as stated: run into the degenerate state (bye flag
already consumed, no forward candidate), the sweep returns normally with
the competitor absent from the output — nothing resembling a surfaced
fault is produced. -/
theorem pairLoop_degenerate_counterexample :
    (pairLoop [wpA] [] 1 true genW [0] ⟨[], ∅, true, 0⟩).pairings = [] ∧
    pairLoop [wpA] [] 1 true genW [0] ⟨[], ∅, true, 0⟩ =
      ⟨[], insert 0 ∅, true, 0⟩ := ⟨rfl, rfl⟩

/-- Closed witness for the amended C9. -/
theorem pairLoop_degenerate_witness :
    (0 ∉ (∅ : Finset ℕ)) ∧
    pairLoop [wpA] [] 1 true genW [0] ⟨[], ∅, true, 0⟩ =
      pairLoop [wpA] [] 1 true genW [] ⟨[], insert 0 ∅, true, 0⟩ :=
  ⟨by decide,
    pairLoop_degenerate_silent_drop [wpA] [] 1 true genW 0 [] ⟨[], ∅, true, 0⟩
      (by decide) (fun j hj => absurd hj (List.not_mem_nil j)) rfl⟩

/-- C5 (amended): with fewer than 2 active competitors the engine silently
returns the empty pairing list — no error of any kind is reported to the
caller. -/
theorem swiss_insufficient_active_silent_empty (gen : ℕ → String)
    (players : List Player) (rn : ℕ) (rounds : List Round)
    (h : (players.filter fun p => p.disabled = false).length < 2) :
    calculateSwissPairings gen players rn rounds = [] := by
  simp only [calculateSwissPairings]
  by_cases hp : players.length < 2
  · rw [if_pos hp]
  · rw [if_neg hp, if_pos h]

/-- Counterexample to C5 as stated: one active competitor (alone, or next
to a disabled second player so that even the caller's total-count guard
passes) yields a normally returned empty round; no `InsufficientCompetitors`
error exists anywhere — the result type is a plain pairing list. -/
theorem swiss_one_active_empty_counterexample :
    calculateSwissPairings genW [wpA, wpBd] 1 [] = [] ∧
    calculateSwissPairings genW [wpA] 1 [] = [] := ⟨rfl, rfl⟩

/-- Closed witness for the amended C5. -/
theorem swiss_insufficient_witness :
    (([wpA, wpBd].filter fun p => p.disabled = false).length < 2) ∧
    calculateSwissPairings genW [wpA, wpBd] 1 [] = [] :=
  ⟨by decide, swiss_insufficient_active_silent_empty genW [wpA, wpBd] 1 [] (by decide)⟩

/-- The sweep's pairing decisions do not depend on the identifier supply:
two runs whose states agree on everything except already-generated
identifiers produce pairings equal in every field except the identifier. -/
theorem pairLoop_core_gen_irrelevant (sorted : List Player) (rounds : List Round)
    (rn : ℕ) (odd : Bool) (gen1 gen2 : ℕ → String) :
    ∀ (l : List ℕ) (st1 st2 : EngineState),
      st1.used = st2.used → st1.byeGiven = st2.byeGiven →
      st1.pairings.map coreOf = st2.pairings.map coreOf →
      (pairLoop sorted rounds rn odd gen1 l st1).pairings.map coreOf =
        (pairLoop sorted rounds rn odd gen2 l st2).pairings.map coreOf := by
  intro l
  induction l with
  | nil =>
    intro st1 st2 _ _ hp
    simpa [pairLoop] using hp
  | cons i is ih =>
    intro st1 st2 hu hb hp
    simp only [pairLoop]
    rw [← hu, ← hb]
    by_cases hiu : i ∈ st1.used
    · rw [if_pos hiu, if_pos hiu]
      exact ih st1 st2 hu hb hp
    · rw [if_neg hiu, if_neg hiu]
      cases hscan : scanOpp sorted rounds (playerAt sorted i) st1.used is none with
      | some j =>
        simp only [hscan]
        refine ih _ _ rfl rfl ?_
        simp only [List.map_append, hp]
        rfl
      | none =>
        simp only [hscan]
        cases hfb : firstUnused st1.used is with
        | some j =>
          simp only [hfb]
          refine ih _ _ rfl rfl ?_
          simp only [List.map_append, hp]
          rfl
        | none =>
          simp only [hfb]
          by_cases hg : odd = true ∧ st1.byeGiven = false
          · rw [if_pos hg, if_pos hg]
            refine ih _ _ rfl rfl ?_
            simp only [List.map_append, hp]
            rfl
          · rw [if_neg hg, if_neg hg]
            exact ih _ _ rfl rfl hp

/-- C6: the engine is deterministic modulo freshly generated identifiers:
runs with any two identifier supplies (the only nondeterministic input of
the source algorithm) agree on every produced pairing field except the
identifier, pairing for pairing, in order. -/
theorem swiss_deterministic_modulo_ids (gen1 gen2 : ℕ → String)
    (players : List Player) (rn : ℕ) (rounds : List Round) :
    (calculateSwissPairings gen1 players rn rounds).map coreOf =
      (calculateSwissPairings gen2 players rn rounds).map coreOf := by
  simp only [calculateSwissPairings]
  split_ifs
  · rfl
  · rfl
  · exact pairLoop_core_gen_irrelevant _ rounds rn _ gen1 gen2 _ _ _ rfl rfl rfl

/-- Replacing one pairing of one round changes the recomputed score by
exactly the difference of that pairing's points. -/
theorem getPlayerScore_update_single (pid : ℕ) (pre post : List Round)
    (ppre ppost : List Pairing) (pr prN : Pairing) :
    getPlayerScore pid (pre ++ Round.mk (ppre ++ prN :: ppost) :: post) =
      getPlayerScore pid (pre ++ Round.mk (ppre ++ pr :: ppost) :: post)
        + (pairingPoints pid prN - pairingPoints pid pr) := by
  simp only [getPlayerScore, List.map_append, List.sum_append, List.map_cons,
    List.sum_cons]
  ring

/-- C7: score recomputation is a pure function of the history (recomputing
twice over unchanged history yields the same value), and recording a draw
on one previously unscored non-bye pairing raises the recomputed score of
each of its two sides by exactly 0.5. -/
theorem recomputeScore_idempotent_and_draw_adds_half (pid : ℕ)
    (pre post : List Round) (ppre ppost : List Pairing) (pr : Pairing) (b : ℕ)
    (hres : pr.result = none) (hb : pr.black = some b) :
    (getPlayerScore pid (pre ++ Round.mk (ppre ++ pr :: ppost) :: post) =
      getPlayerScore pid (pre ++ Round.mk (ppre ++ pr :: ppost) :: post)) ∧
    getPlayerScore pr.white
        (pre ++ Round.mk (ppre ++ { pr with result := some "0.5-0.5" } :: ppost) :: post) =
      getPlayerScore pr.white (pre ++ Round.mk (ppre ++ pr :: ppost) :: post) + 1/2 ∧
    getPlayerScore b
        (pre ++ Round.mk (ppre ++ { pr with result := some "0.5-0.5" } :: ppost) :: post) =
      getPlayerScore b (pre ++ Round.mk (ppre ++ pr :: ppost) :: post) + 1/2 := by
  refine ⟨rfl, ?_, ?_⟩
  · rw [getPlayerScore_update_single pr.white pre post ppre ppost pr
      { pr with result := some "0.5-0.5" }]
    have hw : pairingPoints pr.white { pr with result := some "0.5-0.5" } = 1/2 := by
      simp [pairingPoints]
    have hwo : pairingPoints pr.white pr = 0 := by
      simp [pairingPoints, hres]
    rw [hw, hwo]
    ring
  · rw [getPlayerScore_update_single b pre post ppre ppost pr
      { pr with result := some "0.5-0.5" }]
    by_cases hwb : pr.white = b
    · have hn : pairingPoints b { pr with result := some "0.5-0.5" } = 1/2 := by
        simp [pairingPoints, ← hwb]
      have hno : pairingPoints b pr = 0 := by
        simp [pairingPoints, ← hwb, hres]
      rw [hn, hno]
      ring
    · have hn : pairingPoints b { pr with result := some "0.5-0.5" } = 1/2 := by
        simp [pairingPoints, hwb, hb]
      have hno : pairingPoints b pr = 0 := by
        simp [pairingPoints, hwb, hb, hres]
      rw [hn, hno]
      ring

/-- Closed witness for C7: recording a draw on a concrete unscored pairing
raises its white side's recomputed score by 0.5. -/
theorem recomputeScore_witness :
    wpr.result = none ∧ wpr.black = some 2 ∧
    getPlayerScore wpr.white
        ([] ++ Round.mk ([] ++ { wpr with result := some "0.5-0.5" } :: []) :: []) =
      getPlayerScore wpr.white ([] ++ Round.mk ([] ++ wpr :: []) :: []) + 1/2 :=
  ⟨rfl, rfl,
    (recomputeScore_idempotent_and_draw_adds_half 1 [] [] [] [] wpr 2 rfl rfl).2.1⟩

end ChessSystem
